import Mathlib

/-!
Verification of the normalization and disambiguation engine of the
Covenantal Reformed Version pipeline.

The Python sources are embedded shallowly:

* Strings are `String` (a list of unicode code points, matching Python's
  `str` as a sequence of code points; `len` is `String.length`).
* The regex character classes are modelled on their ASCII part:
  `\w` is `[A-Za-z0-9_]` (`isWordChar`), `\s` is the six ASCII
  whitespace characters (`isWs`), `\d` is `[0-9]` (`Char.isDigit`).
  All string constants appearing in the scripts are ASCII, so the
  ASCII model is exact on the corpus alphabet the scripts manipulate.
* A regex of the shape `\b(w1|w2|...)\b` where every alternative `wi`
  is a nonempty word (a run of `\w` characters) matches exactly the
  maximal word-character runs of the subject that are equal to some
  `wi`: the leading `\b` fails inside a run, and the trailing `\b`
  fails if the run continues past the alternative.  Such regexes are
  therefore embedded as maps over the decomposition of the string into
  maximal runs (`chunks` below).
* The remaining regexes (multi-word literals, lookahead, lazy groups)
  are embedded by a direct left-to-right scan (`subDrive` below) with
  one bespoke matcher per pattern, mirroring `re.sub` semantics:
  scan the subject left to right, at each position try the pattern,
  on success emit the replacement and resume after the match
  (word-boundary tests always look at the original subject).
-/

/-- ASCII model of the regex word-character class `\w`. -/
def isWordChar (c : Char) : Bool := c.isAlphanum || c = '_'

/-- ASCII model of the regex whitespace class `\s` (and of `str.strip`). -/
def isWs (c : Char) : Bool :=
  c = ' ' || c = '\t' || c = '\n' || c = '\r' || c = '\x0b' || c = '\x0c'

/-- Decompose a string into maximal runs of characters of equal
word-character-ness.  `chunksAux b acc l` carries the flag `b` of the
run being collected and its characters `acc` in reverse order. -/
def chunksAux : Bool → List Char → List Char → List (Bool × List Char)
  | b, acc, [] => [(b, acc.reverse)]
  | b, acc, c :: cs =>
    if isWordChar c = b then chunksAux b (c :: acc) cs
    else (b, acc.reverse) :: chunksAux (isWordChar c) [c] cs

/-- The maximal-run decomposition of a character list: each element is
a flag (is this a run of word characters?) together with the run. -/
def chunks : List Char → List (Bool × List Char)
  | [] => []
  | c :: cs => chunksAux (isWordChar c) [c] cs

/-- Reassemble a run decomposition into a character list. -/
def unchunk : List (Bool × List Char) → List Char
  | [] => []
  | bc :: rest => bc.2 ++ unchunk rest

/-- The head run of a decomposition (if any) carries flag `b`. -/
def headFlagIs (b : Bool) : List (Bool × List Char) → Prop
  | [] => True
  | (b2, _) :: _ => b2 = b

/-- Well-formed run decompositions: runs are nonempty and uniform, and
the flags of adjacent runs alternate. -/
def ChunksOK : List (Bool × List Char) → Prop
  | [] => True
  | (b, r) :: rest =>
    r ≠ [] ∧ (∀ c ∈ r, isWordChar c = b) ∧ headFlagIs (!b) rest ∧ ChunksOK rest

/-- Apply `f` to every word run of a decomposition, leaving separator
runs untouched. -/
def mapChunks (f : List Char → List Char) (cl : List (Bool × List Char)) :
    List (Bool × List Char) :=
  cl.map (fun bc => if bc.1 then (true, f bc.2) else bc)

/-- Embedding of a whole-word substitution `\b(w1|...|wn)\b`: apply the
word-level replacement function to each maximal word run. -/
def wordMap (f : List Char → List Char) (l : List Char) : List Char :=
  unchunk (mapChunks f (chunks l))

/-- A word-level function that sends nonempty word runs to nonempty
word runs (so that re-decomposing the output is transparent). -/
def WordFun (f : List Char → List Char) : Prop :=
  ∀ r, r ≠ [] → (∀ c ∈ r, isWordChar c = true) →
    f r ≠ [] ∧ ∀ c ∈ f r, isWordChar c = true

/-! ## kjv_pronouns.py -/

/-- The capitalized alternatives of `DIV_CAP_RE = \b(He|Him|His|Himself)\b`. -/
def divCapWords : List (List Char) :=
  ["He".data, "Him".data, "His".data, "Himself".data]

/-- The lowercase alternatives of `HUM_LOW_RE = \b(he|him|his|himself)\b`. -/
def humLowWords : List (List Char) :=
  ["he".data, "him".data, "his".data, "himself".data]

/-- `bool(RE.search(text))` for a whole-word alternation regex: does some
maximal word run of `t` equal one of the alternatives? -/
def hasWordIn (ws : List (List Char)) (t : String) : Bool :=
  (chunks t.data).any (fun bc => bc.1 && ws.any (fun w => bc.2 == w))

/-- `classify_kjv` (scripts/kjv_pronouns.py): classify a reference verse by
which pronoun classes occur in it as whole words. -/
def classify_kjv (text : String) : String :=
  let has_div := hasWordIn divCapWords text
  let has_hum := hasWordIn humLowWords text
  if has_div && has_hum then "mixed"
  else if has_div then "divine_only"
  else if has_hum then "human_only"
  else "none"

/-- The replacement map `LOW_TO_CAP` applied to one word run (non-matching
runs are returned unchanged, as `re.sub` leaves them alone). -/
def lowToCap (r : List Char) : List Char :=
  if r = "he".data then "He".data
  else if r = "him".data then "Him".data
  else if r = "his".data then "His".data
  else if r = "himself".data then "Himself".data
  else r

/-- The replacement map `CAP_TO_LOW` applied to one word run. -/
def capToLow (r : List Char) : List Char :=
  if r = "He".data then "he".data
  else if r = "Him".data then "him".data
  else if r = "His".data then "his".data
  else if r = "Himself".data then "himself".data
  else r

/-- `force_cap` (scripts/kjv_pronouns.py): `LOW_REPLACE_RE.sub` with
`LOW_TO_CAP`, i.e. capitalize every whole-word lowercase pronoun. -/
def force_cap (t : String) : String := String.mk (wordMap lowToCap t.data)

/-- `force_decap` (scripts/kjv_pronouns.py): `CAP_REPLACE_RE.sub` with
`CAP_TO_LOW`. -/
def force_decap (t : String) : String := String.mk (wordMap capToLow t.data)

/-- The per-verse step of `main` (scripts/kjv_pronouns.py, lines 127-169):
given the `--mixed_policy`, the verse `ref`, the result of
`kjv_map.get(ref)` and the candidate `text`, produce the written-out
text, the review items appended for this verse, and the classification
that was computed (`none` when the missing-reference branch was taken;
Python's `if not kjv_text` is true for both a missing key and `""`). -/
def processVerse (policy ref : String) (kjvText : Option String) (text : String) :
    String × List (String × String) × Option String :=
  match kjvText with
  | none => (text, [(ref, "missing_kjv_ref")], none)
  | some k =>
    if k = "" then (text, [(ref, "missing_kjv_ref")], none)
    else
      let cls := classify_kjv k
      if cls = "divine_only" then (force_cap text, [], some cls)
      else if cls = "human_only" then (force_decap text, [], some cls)
      else if cls = "mixed" then
        if policy = "skip" then
          (text, [(ref, "mixed_pronouns_in_kjv")], some cls)
        else if policy = "cap_only" then
          (force_cap text, [(ref, "mixed_pronouns_in_kjv_cap_only")], some cls)
        else
          (force_decap (force_cap text),
            [(ref, "mixed_pronouns_in_kjv_normalize_anyway")], some cls)
      else (text, [], some cls)

/-- Association-list lookup, the observable behaviour of a Python dict in
which later insertions were prepended (so the first hit is the most
recent write). -/
def lookupA : List (String × String) → String → Option String
  | [], _ => none
  | (a, v) :: rest, k => if a = k then some v else lookupA rest k

/-- The classifier lifted over the reference lookup as `main` does it
(scripts/kjv_pronouns.py lines 127-134): a missing or empty reference
text is the `unavailable` case of the spec. -/
def classifyRef (m : List (String × String)) (ref : String) : String :=
  match lookupA m ref with
  | none => "unavailable"
  | some k => if k = "" then "unavailable" else classify_kjv k

/-! ## polish.py: normalization and the drift guard -/

/-- `str.strip()` (ASCII whitespace model): drop whitespace from both
ends. -/
def pyStrip (s : String) : String :=
  String.mk (((s.data.dropWhile isWs).reverse.dropWhile isWs).reverse)

/-- `str.lower()` (ASCII model). -/
def pyLower (s : String) : String := String.mk (s.data.map Char.toLower)

/-- `str.upper()` (ASCII model). -/
def pyUpper (s : String) : String := String.mk (s.data.map Char.toUpper)

/-- `str.startswith`. -/
def strStartsWith (s p : String) : Bool := p.data.isPrefixOf s.data

/-- `re.sub(r"\s+", " ", s)`: replace each maximal whitespace run by a
single space.  The fuel (initially the subject length) only makes the
recursion structural; every step consumes at least one character, so it
never runs out. -/
def collapseWsF : Nat → List Char → List Char
  | 0, l => l
  | _ + 1, [] => []
  | fuel + 1, c :: cs =>
    if isWs c then ' ' :: collapseWsF fuel (cs.dropWhile isWs)
    else c :: collapseWsF fuel cs

/-- `normalize_space` (scripts/polish.py lines 116-117):
`re.sub(r"\s+", " ", s).strip()`. -/
def normalize_space (s : String) : String :=
  pyStrip (String.mk (collapseWsF s.data.length s.data))

/-- The heading/commentary test of `similarity_guard` (polish.py
line 131): `r.startswith("#") or r.lower().startswith(("note:",
"commentary:", "explanation:", "translator"))`. -/
def commentary_or_heading (r : String) : Bool :=
  strStartsWith r "#" || strStartsWith (pyLower r) "note:" ||
    strStartsWith (pyLower r) "commentary:" ||
    strStartsWith (pyLower r) "explanation:" ||
    strStartsWith (pyLower r) "translator"

/-- `re.match(r"^\d+\s", r)` (polish.py line 134): one or more digits
followed by a whitespace character.  (Backtracking over `\d+` is
immaterial: shrinking the greedy digit run leaves a digit where `\s` is
required.) -/
def added_verse_number (r : String) : Bool :=
  let ds := r.data.takeWhile Char.isDigit
  !ds.isEmpty &&
    (match r.data.drop ds.length with
     | c :: _ => isWs c
     | [] => false)

/-- `similarity_guard` (scripts/polish.py lines 124-144).  Python
compares the IEEE-754 double `len(r)/max(1, len(o))` against the
literals `0.60` and `1.60`; for all lengths below about `4.5e15` the
comparison agrees with the exact rational comparisons `5*len(r) <
3*len(o)` and `5*len(r) > 8*len(o)` used here (the division is
correctly rounded, and the literals round to the doubles nearest to 3/5
and 8/5).  Inside the branch `len(o) >= 20` the `max(1, len(o))` is
`len(o)`. -/
def similarity_guard (original revised : String) : Bool × String :=
  let o := normalize_space original
  let r := normalize_space revised
  if r = "" then (false, "empty_output")
  else if commentary_or_heading r then (false, "commentary_or_heading")
  else if added_verse_number r then (false, "added_verse_number")
  else if 20 ≤ o.length then
    if 5 * r.length < 3 * o.length then (false, "too_short")
    else if 8 * o.length < 5 * r.length then (false, "too_long")
    else (true, "ok")
  else (true, "ok")

/-- The guard step of `main` (scripts/polish.py lines 599-604): a
rejected rewrite falls back to the pre-rewrite text `original` (the
linebreak-stripped input of line 557). -/
def polishGuardStep (original revised : String) : String :=
  if (similarity_guard original revised).1 then revised else original

/-! ## A left-to-right scan engine for the remaining `re.sub` patterns

`subDrive tryM l` mirrors `re.sub`: scan the subject left to right; at
each position run the pattern matcher `tryM prev l` (`prev` is the
preceding subject character, for `\b` tests — `re` evaluates boundaries
on the subject, never on replacements); on a match emit the replacement
and resume after the matched span.  Every pattern below starts with a
word character under `\b`, so a match always consumes at least one
character and the length fuel never runs out. -/

/-- `\b` between a previous character (`none` at the subject start) and
the next character: word-ness must change. -/
def wbBetween (prev : Option Char) (next : Char) : Bool :=
  match prev with
  | none => isWordChar next
  | some p => isWordChar p != isWordChar next

/-- `\b` at the end of a match whose last character is a word character:
the remainder must not continue the word. -/
def wbAfterWord (rest : List Char) : Bool :=
  match rest with
  | [] => true
  | d :: _ => !isWordChar d

/-- `\b` after a captured group ending in `last`. -/
def wbAt (last : Char) (rest : List Char) : Bool :=
  match rest with
  | [] => isWordChar last
  | d :: _ => isWordChar last != isWordChar d

/-- Case-sensitive literal prefix match, returning the remainder. -/
def dropLit : List Char → List Char → Option (List Char)
  | [], l => some l
  | _ :: _, [] => none
  | p :: ps, c :: cs => if c = p then dropLit ps cs else none

/-- Case-insensitive (ASCII) literal prefix match, returning the matched
original characters (for `\1`-style replacements) and the remainder. -/
def dropLitCI : List Char → List Char → Option (List Char × List Char)
  | [], l => some ([], l)
  | _ :: _, [] => none
  | p :: ps, c :: cs =>
    if c.toLower = p.toLower then
      match dropLitCI ps cs with
      | some (m, r) => some (c :: m, r)
      | none => none
    else none

/-- `\s+` consumed maximally: at least one whitespace character, then
the longest whitespace run.  In every pattern below this is exact: the
token after `\s+` either starts with a non-whitespace literal, or is a
lazy `[^,;]+?` group, for which any match using a shorter whitespace
run yields a match using the full run (strip the group's leading
whitespace; the group cannot become empty, since the following pattern
element would then demand whitespace inside the maximal run's
remainder, or a word boundary between two whitespace characters). -/
def matchWs1 : List Char → Option (List Char)
  | c :: cs => if isWs c then some (cs.dropWhile isWs) else none
  | [] => none

/-- Lazy bounded capture `([^,;]+?)` followed by a continuation `cont`
(which receives the last captured character, for trailing `\b` tests):
extend the capture one character at a time, trying the continuation
after each extension, exactly as the backtracking engine does. -/
def lazyCapB {α : Type} (cont : Char → List Char → Option α) :
    List Char → Option (List Char × α)
  | [] => none
  | c :: cs =>
    if c = ',' || c = ';' then none
    else
      match cont c cs with
      | some r => some ([c], r)
      | none =>
        match lazyCapB cont cs with
        | some (g, r) => some (c :: g, r)
        | none => none

/-- One `re.sub` pass (see the section comment). -/
def subDriveF (tryM : Option Char → List Char → Option (List Char × List Char)) :
    Nat → Option Char → List Char → List Char
  | 0, _, l => l
  | _ + 1, _, [] => []
  | fuel + 1, prev, c :: cs =>
    match tryM prev (c :: cs) with
    | some (rep, rest) =>
      rep ++ subDriveF tryM fuel
        (some ((c :: cs).getD ((c :: cs).length - rest.length - 1) c)) rest
    | none => c :: subDriveF tryM fuel (some c) cs

/-- `re.sub` with matcher `tryM` over a whole subject. -/
def subDrive (tryM : Option Char → List Char → Option (List Char × List Char))
    (l : List Char) : List Char :=
  subDriveF tryM l.length none l

/-- Matcher for a literal pattern `\bLIT\b` (case-sensitive; first and
last pattern characters are word characters) with replacement `rep`. -/
def tryLit (pat rep : List Char) (prev : Option Char) (l : List Char) :
    Option (List Char × List Char) :=
  match l with
  | [] => none
  | c :: _ =>
    if wbBetween prev c then
      match dropLit pat l with
      | some rest => if wbAfterWord rest then some (rep, rest) else none
      | none => none
    else none

/-- The same, case-insensitively, with a fixed replacement text. -/
def tryLitCI (pat rep : List Char) (prev : Option Char) (l : List Char) :
    Option (List Char × List Char) :=
  match l with
  | [] => none
  | c :: _ =>
    if wbBetween prev c then
      match dropLitCI pat l with
      | some (_, rest) => if wbAfterWord rest then some (rep, rest) else none
      | none => none
    else none

/-! ## polish.py: enforce_lord_caps -/

/-- The negative lookahead `(?!\s+GOD\b)` of polish.py line 185. -/
def wsGODFollows (rest : List Char) : Bool :=
  match matchWs1 rest with
  | some r2 =>
    match dropLit "GOD".data r2 with
    | some r3 => wbAfterWord r3
    | none => false
  | none => false

/-- Matcher for `\bthe Lord\b(?!\s+GOD\b)` with replacement `the LORD`. -/
def tryTheLord (prev : Option Char) (l : List Char) :
    Option (List Char × List Char) :=
  match tryLit "the Lord".data "the LORD".data prev l with
  | some (rep, rest) => if wsGODFollows rest then none else some (rep, rest)
  | none => none

/-- `enforce_lord_caps` (scripts/polish.py lines 181-187), the five
substitutions in source order (the first is the identity replacement of
line 182). -/
def enforce_lord_caps (t : String) : String :=
  let s1 := subDrive (tryLit "the Lord GOD".data "the Lord GOD".data) t.data
  let s2 := subDrive (tryLit "Lord God".data "LORD God".data) s1
  let s3 := subDrive (tryLit "And the Lord said".data "And the LORD said".data) s2
  let s4 := subDrive tryTheLord s3
  let s5 := subDrive (tryLit "angel of the Lord".data "angel of the LORD".data) s4
  String.mk s5

/-! ## polish.py: enforce_compound_numbers -/

def tensHigh : List (List Char) :=
  ["sixty".data, "seventy".data, "eighty".data, "ninety".data]

def tensLow : List (List Char) :=
  ["twenty".data, "thirty".data, "forty".data, "fifty".data]

def unitWords : List (List Char) :=
  ["one".data, "two".data, "three".data, "four".data, "five".data,
    "six".data, "seven".data, "eight".data, "nine".data]

/-- Try the alternatives in order as case-insensitive prefixes.  The
alternative sets used here are pairwise prefix-free, so at most one can
match at a given position and alternation backtracking is immaterial. -/
def tryAltCI : List (List Char) → List Char → Option (List Char × List Char)
  | [], _ => none
  | a :: rest, l =>
    match dropLitCI a l with
    | some mr => some mr
    | none => tryAltCI rest l

/-- Matcher for `\b(TENS)\s+and\s+(UNIT)\b` (IGNORECASE) with
replacement `\1-\2` (polish.py lines 190-203). -/
def tryCompound (tens : List (List Char)) (prev : Option Char) (l : List Char) :
    Option (List Char × List Char) :=
  match l with
  | [] => none
  | c :: _ =>
    if wbBetween prev c then
      match tryAltCI tens l with
      | some (m1, r1) =>
        match matchWs1 r1 with
        | some r2 =>
          match dropLitCI "and".data r2 with
          | some (_, r3) =>
            match matchWs1 r3 with
            | some r4 =>
              match tryAltCI unitWords r4 with
              | some (m2, r5) =>
                if wbAfterWord r5 then some (m1 ++ '-' :: m2, r5) else none
              | none => none
            | none => none
          | none => none
        | none => none
      | none => none
    else none

/-- `enforce_compound_numbers` (scripts/polish.py lines 190-203). -/
def enforce_compound_numbers (t : String) : String :=
  let s1 := subDrive (tryCompound tensHigh) t.data
  let s2 := subDrive (tryCompound tensLow) s1
  String.mk s2

/-! ## polish.py: enforce_between_from -/

/-- Matcher for rule 2, `\bdivid(e|ing) between\b` (IGNORECASE) with
replacement `divid\1` (polish.py line 153): the replacement is the
literal lowercase `divid` followed by the captured `e`/`ing` in its
original case. -/
def tryDividBetween (prev : Option Char) (l : List Char) :
    Option (List Char × List Char) :=
  match l with
  | [] => none
  | c :: _ =>
    if wbBetween prev c then
      match dropLitCI "divid".data l with
      | some (_, r1) =>
        match
          (match dropLitCI "e".data r1 with
           | some (m1, r2) =>
             (match dropLitCI " between".data r2 with
              | some (_, r3) => if wbAfterWord r3 then some (m1, r3) else none
              | none => none)
           | none => none) with
        | some (m1, r3) => some ("divid".data ++ m1, r3)
        | none =>
          match dropLitCI "ing".data r1 with
          | some (m1, r2) =>
            match dropLitCI " between".data r2 with
            | some (_, r3) =>
              if wbAfterWord r3 then some ("divid".data ++ m1, r3) else none
            | none => none
          | none => none
      | none => none
    else none

/-- The continuation `\s+and\s+between\s+([^,;]+?)\b` shared by calque
rules 3 and 4 (polish.py lines 154-165); returns the second capture and
the remainder. -/
def contAndBetween (rest : List Char) : Option (List Char × List Char) :=
  match matchWs1 rest with
  | some r1 =>
    match dropLitCI "and".data r1 with
    | some (_, r2) =>
      match matchWs1 r2 with
      | some r3 =>
        match dropLitCI "between".data r3 with
        | some (_, r4) =>
          match matchWs1 r4 with
          | some r5 =>
            lazyCapB (fun last r6 => if wbAt last r6 then some r6 else none) r5
          | none => none
        | none => none
      | none => none
    | none => none
  | none => none

/-- Matcher for rule 3,
`\bto divide\s+between\s+([^,;]+?)\s+and\s+between\s+([^,;]+?)\b`
(IGNORECASE) with replacement `to divide \1 from \2`. -/
def tryToDivideBetween (prev : Option Char) (l : List Char) :
    Option (List Char × List Char) :=
  match l with
  | [] => none
  | c :: _ =>
    if wbBetween prev c then
      match dropLitCI "to divide".data l with
      | some (_, r1) =>
        match matchWs1 r1 with
        | some r2 =>
          match dropLitCI "between".data r2 with
          | some (_, r3) =>
            match matchWs1 r3 with
            | some r4 =>
              match lazyCapB (fun _ r5 => contAndBetween r5) r4 with
              | some (g1, (g2, rest)) =>
                some ("to divide ".data ++ g1 ++ " from ".data ++ g2, rest)
              | none => none
            | none => none
          | none => none
        | none => none
      | none => none
    else none

/-- Matcher for rule 4,
`\bto divide\s+([^,;]+?)\s+and\s+between\s+([^,;]+?)\b` (IGNORECASE)
with replacement `to divide \1 from \2`. -/
def tryToDivideAnd (prev : Option Char) (l : List Char) :
    Option (List Char × List Char) :=
  match l with
  | [] => none
  | c :: _ =>
    if wbBetween prev c then
      match dropLitCI "to divide".data l with
      | some (_, r1) =>
        match matchWs1 r1 with
        | some r2 =>
          match lazyCapB (fun _ r3 => contAndBetween r3) r2 with
          | some (g1, (g2, rest)) =>
            some ("to divide ".data ++ g1 ++ " from ".data ++ g2, rest)
          | none => none
        | none => none
      | none => none
    else none

/-- The continuation `\s+and\s+the\s+([^,;]+?)\b` of rule 5. -/
def contAndThe (rest : List Char) : Option (List Char × List Char) :=
  match matchWs1 rest with
  | some r1 =>
    match dropLitCI "and".data r1 with
    | some (_, r2) =>
      match matchWs1 r2 with
      | some r3 =>
        match dropLitCI "the".data r3 with
        | some (_, r4) =>
          match matchWs1 r4 with
          | some r5 =>
            lazyCapB (fun last r6 => if wbAt last r6 then some r6 else none) r5
          | none => none
        | none => none
      | none => none
    | none => none
  | none => none

/-- The continuation `\s+and\s+([^,;]+?)\b` of rule 6. -/
def contAnd (rest : List Char) : Option (List Char × List Char) :=
  match matchWs1 rest with
  | some r1 =>
    match dropLitCI "and".data r1 with
    | some (_, r2) =>
      match matchWs1 r2 with
      | some r3 =>
        lazyCapB (fun last r4 => if wbAt last r4 then some r4 else none) r3
      | none => none
    | none => none
  | none => none

/-- Matcher for rule 5,
`\bseparated\s+between\s+([^,;]+?)\s+and\s+the\s+([^,;]+?)\b`
(IGNORECASE) with replacement `separated \1 from the \2`. -/
def trySeparatedThe (prev : Option Char) (l : List Char) :
    Option (List Char × List Char) :=
  match l with
  | [] => none
  | c :: _ =>
    if wbBetween prev c then
      match dropLitCI "separated".data l with
      | some (_, r1) =>
        match matchWs1 r1 with
        | some r2 =>
          match dropLitCI "between".data r2 with
          | some (_, r3) =>
            match matchWs1 r3 with
            | some r4 =>
              match lazyCapB (fun _ r5 => contAndThe r5) r4 with
              | some (g1, (g2, rest)) =>
                some ("separated ".data ++ g1 ++ " from the ".data ++ g2, rest)
              | none => none
            | none => none
          | none => none
        | none => none
      | none => none
    else none

/-- Matcher for rule 6,
`\bseparated\s+between\s+([^,;]+?)\s+and\s+([^,;]+?)\b` (IGNORECASE)
with replacement `separated \1 from \2`. -/
def trySeparatedAnd (prev : Option Char) (l : List Char) :
    Option (List Char × List Char) :=
  match l with
  | [] => none
  | c :: _ =>
    if wbBetween prev c then
      match dropLitCI "separated".data l with
      | some (_, r1) =>
        match matchWs1 r1 with
        | some r2 =>
          match dropLitCI "between".data r2 with
          | some (_, r3) =>
            match matchWs1 r3 with
            | some r4 =>
              match lazyCapB (fun _ r5 => contAnd r5) r4 with
              | some (g1, (g2, rest)) =>
                some ("separated ".data ++ g1 ++ " from ".data ++ g2, rest)
              | none => none
            | none => none
          | none => none
        | none => none
      | none => none
    else none

/-- `enforce_between_from` (scripts/polish.py lines 151-178), the six
substitutions in source order. -/
def enforce_between_from (t : String) : String :=
  let s1 := subDrive (tryLitCI "separated between".data "separated".data) t.data
  let s2 := subDrive tryDividBetween s1
  let s3 := subDrive tryToDivideBetween s2
  let s4 := subDrive tryToDivideAnd s3
  let s5 := subDrive trySeparatedThe s4
  let s6 := subDrive trySeparatedAnd s5
  String.mk s6

/-! ## polish.py: enforce_reverential_pronouns_minimal -/

/-- Scan a run decomposition for the two-word literal `w1␣w2` (word
runs `w1`, `w2` separated by exactly the separator run `sep`; the
surrounding `\b` tests hold because the runs are maximal). -/
def hasTriple (w1 sep w2 : List Char) : List (Bool × List Char) → Bool
  | (b1, r1) :: (b2, r2) :: (b3, r3) :: rest =>
    (b1 && !b2 && b3 && r1 == w1 && r2 == sep && r3 == w2) ||
      hasTriple w1 sep w2 ((b2, r2) :: (b3, r3) :: rest)
  | _ => false

/-- `re.search(r"\b(God|LORD|Lord GOD|the LORD)\b", text)` (polish.py
line 211): a whole word `God` or `LORD`, or one of the two-word
literals with their single internal space. -/
def hasDivineMarker (t : String) : Bool :=
  hasWordIn ["God".data] t || hasWordIn ["LORD".data] t ||
    hasTriple "Lord".data [' '] "GOD".data (chunks t.data) ||
    hasTriple "the".data [' '] "LORD".data (chunks t.data)

/-- One whole-word pronoun substitution `\bTGT\b → REP` at the word
level. -/
def subPronoun (tgt rep : List Char) (r : List Char) : List Char :=
  if r = tgt then rep else r

/-- `enforce_reverential_pronouns_minimal` (scripts/polish.py lines
206-217): if a divine marker occurs, capitalize the four lowercase
pronouns (four successive whole-word substitutions). -/
def enforce_reverential_pronouns_minimal (t : String) : String :=
  if hasDivineMarker t then
    String.mk (wordMap (subPronoun "himself".data "Himself".data)
      (wordMap (subPronoun "his".data "His".data)
        (wordMap (subPronoun "him".data "Him".data)
          (wordMap (subPronoun "he".data "He".data) t.data))))
  else t

/-- The four pronoun substitutions composed at the word level. -/
def pronCapAll (r : List Char) : List Char :=
  subPronoun "himself".data "Himself".data
    (subPronoun "his".data "His".data
      (subPronoun "him".data "Him".data
        (subPronoun "he".data "He".data r)))

/-! ## polish.py: validation and apply_enforcement -/

/-- Python's substring test `needle in hay`. -/
def listInfix (n : List Char) : List Char → Bool
  | [] => n.isEmpty
  | c :: cs => n.isPrefixOf (c :: cs) || listInfix n cs

/-- `needle in hay` on strings. -/
def strContains (hay needle : String) : Bool := listInfix needle.data hay.data

/-- `validate_enforcement` (scripts/polish.py lines 220-222); the
`ValueError` is modelled as `Except.error`. -/
def validate_enforcement (t : String) : Except String Unit :=
  if strContains t "angel of the LORD" && strContains t "angel of the Lord" then
    Except.error "Mixed angel of the LORD and angel of the Lord after enforcement"
  else Except.ok ()

/-- The four rewrite stages of `apply_enforcement` in source order
(polish.py lines 226-229). -/
def enforcementRules (t : String) : String :=
  enforce_reverential_pronouns_minimal
    (enforce_compound_numbers (enforce_between_from (enforce_lord_caps t)))

/-- `apply_enforcement` (scripts/polish.py lines 225-231): run the four
rules, then the hard mixed-casing validation. -/
def apply_enforcement (t : String) : Except String String :=
  match validate_enforcement (enforcementRules t) with
  | Except.ok _ => Except.ok (enforcementRules t)
  | Except.error e => Except.error e

/-! ## apply_caps.py -/

structure CsvRow where
  decision : String
  ref : String
  original : String
  suggested : String

/-- `read_approved` (scripts/apply_caps.py lines 6-28): fold the CSV
rows into the approved mapping.  Prepending with first-hit lookup
(`lookupA`) models the Python dict, in which a later write to the same
key wins. -/
def read_approved (rows : List CsvRow) : List (String × String) :=
  rows.foldl
    (fun m w =>
      if pyUpper (pyStrip w.decision) = "APPROVE" then
        if pyStrip w.ref = "" then m else (pyStrip w.ref, w.suggested) :: m
      else m) []

/-- `apply` (scripts/apply_caps.py lines 30-47) acting on the corpus
records (`ref`, `translation`): rewrite a record's text when its ref is
approved and the text differs. -/
def applyCaps (approved : List (String × String))
    (records : List (String × String)) : List (String × String) :=
  records.map (fun rc =>
    match lookupA approved rc.1 with
    | some after => if rc.2 ≠ after then (rc.1, after) else rc
    | none => rc)

/-- The artifact rows that approve `ref` (the specification side of the
last-APPROVE-wins contract). -/
def approveRowsFor (rows : List CsvRow) (ref : String) : List CsvRow :=
  rows.filter (fun w =>
    pyUpper (pyStrip w.decision) == "APPROVE" && pyStrip w.ref == ref &&
      ref != "")

/-! ## polish.py: load_kjv_jsonl -/

structure KjvLine where
  ref : Option String
  kjv : Option String
  text : Option String

/-- Python `a or dflt` on an optional string (`None` and `""` are
falsy). -/
def pyOr (a : Option String) (dflt : String) : String :=
  match a with
  | some s => if s = "" then dflt else s
  | none => dflt

/-- One line of `load_kjv_jsonl` (scripts/polish.py lines 80-84): the
ref is `(obj.get("ref") or "").strip()`, the value is
`(obj.get("kjv") or obj.get("text") or "").strip()`; pairs with an
empty ref or an empty stripped text are skipped. -/
def loadKjvStep (m : List (String × String)) (ln : KjvLine) :
    List (String × String) :=
  let ref := pyStrip (pyOr ln.ref "")
  let txt := pyStrip (pyOr ln.kjv (pyOr ln.text ""))
  if ref = "" then m
  else if txt = "" then m
  else (ref, txt) :: m

/-- `load_kjv_jsonl` (scripts/polish.py lines 73-85).  Prepend-with-
first-hit lookup models the dict as in `read_approved`. -/
def load_kjv_jsonl (lines : List KjvLine) : List (String × String) :=
  lines.foldl loadKjvStep []

/-! ## Run-decomposition lemmas -/

theorem unchunk_chunksAux (l : List Char) : ∀ (b : Bool) (acc : List Char),
    unchunk (chunksAux b acc l) = acc.reverse ++ l := by
  induction l with
  | nil => intro b acc; simp [chunksAux, unchunk]
  | cons c cs ih =>
    intro b acc
    by_cases h : isWordChar c = b
    · simp [chunksAux, h, ih]
    · simp [chunksAux, h, unchunk, ih]

theorem unchunk_chunks (l : List Char) : unchunk (chunks l) = l := by
  cases l with
  | nil => rfl
  | cons c cs => simp [chunks, unchunk_chunksAux]

theorem chunksAux_head (l : List Char) : ∀ (b : Bool) (acc : List Char),
    ∃ r rest, chunksAux b acc l = (b, r) :: rest := by
  induction l with
  | nil => intro b acc; exact ⟨acc.reverse, [], rfl⟩
  | cons c cs ih =>
    intro b acc
    by_cases h : isWordChar c = b
    · simpa [chunksAux, h] using ih b (c :: acc)
    · exact ⟨acc.reverse, chunksAux (isWordChar c) [c] cs, by simp [chunksAux, h]⟩

theorem chunksOK_cons {b : Bool} {r : List Char} {cl : List (Bool × List Char)} :
    ChunksOK ((b, r) :: cl) ↔
      r ≠ [] ∧ (∀ c ∈ r, isWordChar c = b) ∧ headFlagIs (!b) cl ∧ ChunksOK cl :=
  Iff.rfl

theorem chunksOK_chunksAux (l : List Char) : ∀ (b : Bool) (acc : List Char),
    acc ≠ [] → (∀ c ∈ acc, isWordChar c = b) → ChunksOK (chunksAux b acc l) := by
  induction l with
  | nil =>
    intro b acc h1 h2
    show ChunksOK [(b, acc.reverse)]
    rw [chunksOK_cons]
    exact ⟨by simpa using h1, by simpa using h2, trivial, trivial⟩
  | cons c cs ih =>
    intro b acc h1 h2
    by_cases h : isWordChar c = b
    · have hstep : chunksAux b acc (c :: cs) = chunksAux b (c :: acc) cs := by
        simp [chunksAux, h]
      rw [hstep]
      refine ih b (c :: acc) (by simp) ?_
      intro d hd
      rcases hd with _ | hd
      · exact h
      · exact h2 d (by assumption)
    · have hstep : chunksAux b acc (c :: cs)
          = (b, acc.reverse) :: chunksAux (isWordChar c) [c] cs := by
        simp [chunksAux, h]
      rw [hstep]
      have hflip : isWordChar c = !b := by
        cases hb : isWordChar c <;> cases b <;> simp_all
      rw [chunksOK_cons]
      refine ⟨by simpa using h1, by simpa using h2, ?_, ?_⟩
      · obtain ⟨r, rest, heq⟩ := chunksAux_head cs (isWordChar c) [c]
        rw [heq]
        show isWordChar c = !b
        exact hflip
      · exact ih (isWordChar c) [c] (by simp) (by simp)

theorem chunksOK_chunks (l : List Char) : ChunksOK (chunks l) := by
  cases l with
  | nil => trivial
  | cons c cs => exact chunksOK_chunksAux cs (isWordChar c) [c] (by simp) (by simp)

theorem chunksAux_run (r : List Char) : ∀ (b : Bool) (acc rest : List Char),
    (∀ c ∈ r, isWordChar c = b) →
    chunksAux b acc (r ++ rest) = chunksAux b (r.reverse ++ acc) rest := by
  induction r with
  | nil => intro b acc rest _; simp
  | cons c cs ih =>
    intro b acc rest h
    have hc : isWordChar c = b := h c (by simp)
    have hstep : chunksAux b acc (c :: (cs ++ rest))
        = chunksAux b (c :: acc) (cs ++ rest) := by
      simp [chunksAux, hc]
    rw [List.cons_append, hstep, ih b (c :: acc) rest (fun d hd => h d (by simp [hd]))]
    simp

theorem chunksAux_stop (b : Bool) (acc : List Char) (d : Char) (rest : List Char)
    (h : isWordChar d = !b) :
    chunksAux b acc (d :: rest) = (b, acc.reverse) :: chunks (d :: rest) := by
  have hne : ¬ isWordChar d = b := by cases b <;> simp_all
  simp [chunksAux, hne, chunks]

theorem chunks_unchunk : ∀ cl, ChunksOK cl → chunks (unchunk cl) = cl := by
  intro cl
  induction cl with
  | nil => intro _; rfl
  | cons bc cl' ih =>
    obtain ⟨b, r⟩ := bc
    intro h
    rw [chunksOK_cons] at h
    obtain ⟨hne, hw, hflag, hok⟩ := h
    cases r with
    | nil => exact absurd rfl hne
    | cons c r' =>
      have hc : isWordChar c = b := hw c (by simp)
      have hw' : ∀ d ∈ r', isWordChar d = b := fun d hd => hw d (by simp [hd])
      show chunks ((c :: r') ++ unchunk cl') = (b, c :: r') :: cl'
      have h1 : chunks ((c :: r') ++ unchunk cl')
          = chunksAux b [c] (r' ++ unchunk cl') := by
        simp [chunks, hc]
      rw [h1, chunksAux_run r' b [c] (unchunk cl') hw']
      cases cl' with
      | nil =>
        simp [unchunk, chunksAux]
      | cons bc2 cl'' =>
        obtain ⟨b2, r2⟩ := bc2
        rw [chunksOK_cons] at hok
        obtain ⟨hne2, hw2, _, _⟩ := hok
        have hb2 : b2 = !b := hflag
        cases r2 with
        | nil => exact absurd rfl hne2
        | cons d r2' =>
          have hd : isWordChar d = !b := by
            have := hw2 d (by simp)
            rw [this, hb2]
          show chunksAux b (r'.reverse ++ [c]) ((d :: r2') ++ unchunk cl'')
              = (b, c :: r') :: (b2, d :: r2') :: cl''
          rw [show (d :: r2') ++ unchunk cl'' = d :: (r2' ++ unchunk cl'') from rfl]
          rw [chunksAux_stop b (r'.reverse ++ [c]) d (r2' ++ unchunk cl'') hd]
          have h2 : chunks (d :: (r2' ++ unchunk cl'')) = (b2, d :: r2') :: cl'' := by
            have h3 := ih (by rw [chunksOK_cons]; exact ⟨hne2, hw2, by assumption, by assumption⟩)
            simpa [unchunk] using h3
          rw [h2]
          simp

theorem headFlagIs_mapChunks (f : List Char → List Char) (b : Bool)
    (cl : List (Bool × List Char)) (h : headFlagIs b cl) :
    headFlagIs b (mapChunks f cl) := by
  cases cl with
  | nil => trivial
  | cons bc cl' =>
    obtain ⟨b2, r2⟩ := bc
    cases b2 <;> simpa [mapChunks, headFlagIs] using h

theorem chunksOK_mapChunks (f : List Char → List Char) (hf : WordFun f) :
    ∀ cl, ChunksOK cl → ChunksOK (mapChunks f cl) := by
  intro cl
  induction cl with
  | nil => intro _; trivial
  | cons bc cl' ih =>
    obtain ⟨b, r⟩ := bc
    intro h
    rw [chunksOK_cons] at h
    obtain ⟨hne, hw, hflag, hok⟩ := h
    cases b with
    | true =>
      obtain ⟨hfne, hfw⟩ := hf r hne (by simpa using hw)
      show ChunksOK ((true, f r) :: mapChunks f cl')
      rw [chunksOK_cons]
      exact ⟨hfne, by simpa using hfw, headFlagIs_mapChunks f _ cl' hflag, ih hok⟩
    | false =>
      show ChunksOK ((false, r) :: mapChunks f cl')
      rw [chunksOK_cons]
      exact ⟨hne, hw, headFlagIs_mapChunks f _ cl' hflag, ih hok⟩

theorem chunks_wordMap (f : List Char → List Char) (hf : WordFun f) (l : List Char) :
    chunks (wordMap f l) = mapChunks f (chunks l) :=
  chunks_unchunk _ (chunksOK_mapChunks f hf _ (chunksOK_chunks l))

theorem mapChunks_mapChunks (f g : List Char → List Char)
    (cl : List (Bool × List Char)) :
    mapChunks f (mapChunks g cl) = mapChunks (fun r => f (g r)) cl := by
  unfold mapChunks
  rw [List.map_map]
  apply List.map_congr_left
  intro bc _
  obtain ⟨b, r⟩ := bc
  cases b <;> simp

theorem wordMap_comp (f g : List Char → List Char) (hg : WordFun g) (l : List Char) :
    wordMap f (wordMap g l) = wordMap (fun r => f (g r)) l := by
  have h1 : wordMap f (wordMap g l) = unchunk (mapChunks f (chunks (wordMap g l))) := rfl
  rw [h1, chunks_wordMap g hg, mapChunks_mapChunks]
  rfl

theorem wordMap_congr (f g : List Char → List Char) (h : ∀ r, f r = g r)
    (l : List Char) : wordMap f l = wordMap g l := by
  unfold wordMap mapChunks
  congr 1
  exact List.map_congr_left (fun bc _ => by cases bc.1 <;> simp [h])

theorem wordMap_id_on (f : List Char → List Char) (l : List Char)
    (h : ∀ bc ∈ chunks l, bc.1 = true → f bc.2 = bc.2) : wordMap f l = l := by
  unfold wordMap mapChunks
  have hmap : (chunks l).map (fun bc => if bc.1 then (true, f bc.2) else bc)
      = chunks l := by
    conv_rhs => rw [← List.map_id (chunks l)]
    apply List.map_congr_left
    intro bc hbc
    obtain ⟨b, r⟩ := bc
    cases b with
    | false => simp
    | true => simp [h ⟨true, r⟩ hbc rfl]
  rw [hmap, unchunk_chunks]

/-! ## Word-function facts -/

theorem wordFun_lowToCap : WordFun lowToCap := by
  intro r hne hw
  unfold lowToCap
  by_cases h1 : r = "he".data
  · subst h1; exact ⟨by decide, by decide⟩
  · by_cases h2 : r = "him".data
    · subst h2; simp [h1]; decide
    · by_cases h3 : r = "his".data
      · subst h3; simp [h1, h2]; decide
      · by_cases h4 : r = "himself".data
        · subst h4; simp [h1, h2, h3]; decide
        · simp only [if_neg h1, if_neg h2, if_neg h3, if_neg h4]
          exact ⟨hne, hw⟩

theorem wordFun_capToLow : WordFun capToLow := by
  intro r hne hw
  unfold capToLow
  by_cases h1 : r = "He".data
  · subst h1; exact ⟨by decide, by decide⟩
  · by_cases h2 : r = "Him".data
    · subst h2; simp [h1]; decide
    · by_cases h3 : r = "His".data
      · subst h3; simp [h1, h2]; decide
      · by_cases h4 : r = "Himself".data
        · subst h4; simp [h1, h2, h3]; decide
        · simp only [if_neg h1, if_neg h2, if_neg h3, if_neg h4]
          exact ⟨hne, hw⟩

theorem wordFun_subPronoun (tgt rep : List Char)
    (hrep : rep ≠ [] ∧ ∀ c ∈ rep, isWordChar c = true) :
    WordFun (subPronoun tgt rep) := by
  intro r hne hw
  unfold subPronoun
  by_cases h : r = tgt
  · simp only [if_pos h]; exact hrep
  · simp only [if_neg h]; exact ⟨hne, hw⟩

theorem wordFun_comp (f g : List Char → List Char) (hf : WordFun f) (hg : WordFun g) :
    WordFun (fun r => f (g r)) := by
  intro r hne hw
  obtain ⟨h1, h2⟩ := hg r hne hw
  exact hf (g r) h1 h2

theorem wordFun_pronCapAll : WordFun pronCapAll := by
  intro r hne hw
  have h1 := wordFun_subPronoun "he".data "He".data (by decide) r hne hw
  have h2 := wordFun_subPronoun "him".data "Him".data (by decide) _ h1.1 h1.2
  have h3 := wordFun_subPronoun "his".data "His".data (by decide) _ h2.1 h2.2
  exact wordFun_subPronoun "himself".data "Himself".data (by decide) _ h3.1 h3.2

/-- The four successive whole-word pronoun substitutions of the resolver
collapse to one word-level map. -/
theorem capAll_eq_wordMap (l : List Char) :
    wordMap (subPronoun "himself".data "Himself".data)
      (wordMap (subPronoun "his".data "His".data)
        (wordMap (subPronoun "him".data "Him".data)
          (wordMap (subPronoun "he".data "He".data) l)))
    = wordMap pronCapAll l := by
  rw [wordMap_comp _ _ (wordFun_subPronoun "he".data "He".data (by decide))]
  rw [wordMap_comp _ _ (wordFun_comp _ _
    (wordFun_subPronoun "him".data "Him".data (by decide))
    (wordFun_subPronoun "he".data "He".data (by decide)))]
  rw [wordMap_comp _ _ (wordFun_comp _ _
    (wordFun_subPronoun "his".data "His".data (by decide))
    (wordFun_comp _ _
      (wordFun_subPronoun "him".data "Him".data (by decide))
      (wordFun_subPronoun "he".data "He".data (by decide))))]
  exact wordMap_congr _ _ (fun r => rfl) l

theorem pronCapAll_fix (r : List Char) (h1 : r ≠ "he".data) (h2 : r ≠ "him".data)
    (h3 : r ≠ "his".data) (h4 : r ≠ "himself".data) : pronCapAll r = r := by
  simp [pronCapAll, subPronoun, h1, h2, h3, h4]

theorem pronCapAll_idem (r : List Char) : pronCapAll (pronCapAll r) = pronCapAll r := by
  by_cases h1 : r = "he".data
  · subst h1; decide
  · by_cases h2 : r = "him".data
    · subst h2; decide
    · by_cases h3 : r = "his".data
      · subst h3; decide
      · by_cases h4 : r = "himself".data
        · subst h4; decide
        · rw [pronCapAll_fix r h1 h2 h3 h4, pronCapAll_fix r h1 h2 h3 h4]

/-! ## C1, C2, C3: the reference-gated pronoun stage -/

/-- C1: when the reference text classifies as `mixed`, the pronoun stage
(with its default `skip` policy) returns the candidate text byte-for-byte
unchanged and appends exactly one review item for that ref, whose reason
is the mixed-reference reason (spelled `mixed_pronouns_in_kjv` in the
code, the spec's `mixed_reference`). -/
theorem mixed_reference_skips (ref k t : String) (h : classify_kjv k = "mixed") :
    processVerse "skip" ref (some k) t
      = (t, [(ref, "mixed_pronouns_in_kjv")], some "mixed") := by
  have hk : k ≠ "" := by intro he; rw [he] at h; exact absurd h (by decide)
  simp [processVerse, hk, h]

/-- Witness for C1 at a concrete mixed reference verse. -/
theorem mixed_reference_skips_witness :
    classify_kjv "He saw him" = "mixed"
    ∧ processVerse "skip" "EXOD 4:27" (some "He saw him") "then he went"
      = ("then he went", [("EXOD 4:27", "mixed_pronouns_in_kjv")], some "mixed") :=
  ⟨by decide, mixed_reference_skips "EXOD 4:27" "He saw him" "then he went" (by decide)⟩

/-- C2: when the reference text classifies as `divine_only`, the pronoun
stage outputs `force_cap` of the candidate and emits no review item; and
`force_cap` maps every maximal word run through `lowToCap` (capitalizing
exactly the whole-word occurrences of he/him/his/himself) while leaving
every separator run — hence everything else — unchanged. -/
theorem divine_only_forces_cap (ref k t : String)
    (h : classify_kjv k = "divine_only") :
    processVerse "skip" ref (some k) t = (force_cap t, [], some "divine_only")
    ∧ chunks (force_cap t).data = mapChunks lowToCap (chunks t.data) := by
  constructor
  · have hk : k ≠ "" := by intro he; rw [he] at h; exact absurd h (by decide)
    simp [processVerse, hk, h]
  · exact chunks_wordMap lowToCap wordFun_lowToCap t.data

/-- Witness for C2 on the spec's example: with a divine-only reference
verse, the candidate `god spoke to him and he obeyed` becomes
`god spoke to Him and He obeyed`. -/
theorem divine_only_forces_cap_witness :
    classify_kjv "He spoke to Him and His ways" = "divine_only"
    ∧ processVerse "skip" "GEN 1:1" (some "He spoke to Him and His ways")
        "god spoke to him and he obeyed"
      = ("god spoke to Him and He obeyed", [], some "divine_only") := by
  refine ⟨by decide, ?_⟩
  have h := (divine_only_forces_cap "GEN 1:1" "He spoke to Him and His ways"
    "god spoke to him and he obeyed" (by decide)).1
  rw [h]
  decide

/-- C3: the classifier is a total deterministic function of the reference
text with exactly the five advertised cases: `mixed` iff both a
capitalized and a lowercase whole-word pronoun occur, `divine_only` iff
only capitalized ones occur, `human_only` iff only lowercase ones occur,
`none` iff neither occurs, and (lifting over the reference lookup as
`main` does) `unavailable` when no reference record exists for the ref. -/
theorem classifier_totality (t : String) :
    (classify_kjv t = "mixed"
      ↔ hasWordIn divCapWords t = true ∧ hasWordIn humLowWords t = true)
  ∧ (classify_kjv t = "divine_only"
      ↔ hasWordIn divCapWords t = true ∧ hasWordIn humLowWords t = false)
  ∧ (classify_kjv t = "human_only"
      ↔ hasWordIn divCapWords t = false ∧ hasWordIn humLowWords t = true)
  ∧ (classify_kjv t = "none"
      ↔ hasWordIn divCapWords t = false ∧ hasWordIn humLowWords t = false)
  ∧ (classify_kjv t = "mixed" ∨ classify_kjv t = "divine_only"
      ∨ classify_kjv t = "human_only" ∨ classify_kjv t = "none")
  ∧ (∀ (m : List (String × String)) (ref : String),
      lookupA m ref = none → classifyRef m ref = "unavailable") := by
  refine ⟨?_, ?_, ?_, ?_, ?_, ?_⟩
  · cases hd : hasWordIn divCapWords t <;> cases hh : hasWordIn humLowWords t <;>
      simp [classify_kjv, hd, hh]
  · cases hd : hasWordIn divCapWords t <;> cases hh : hasWordIn humLowWords t <;>
      simp [classify_kjv, hd, hh]
  · cases hd : hasWordIn divCapWords t <;> cases hh : hasWordIn humLowWords t <;>
      simp [classify_kjv, hd, hh]
  · cases hd : hasWordIn divCapWords t <;> cases hh : hasWordIn humLowWords t <;>
      simp [classify_kjv, hd, hh]
  · cases hd : hasWordIn divCapWords t <;> cases hh : hasWordIn humLowWords t <;>
      simp [classify_kjv, hd, hh]
  · intro m ref hnone
    unfold classifyRef
    rw [hnone]

/-- Witness for C3: a concrete mixed classification obtained through the
iff, and the unavailable case on an empty reference index. -/
theorem classifier_totality_witness :
    classify_kjv "He saw him" = "mixed" ∧ classifyRef [] "GEN 1:1" = "unavailable" :=
  ⟨(classifier_totality "He saw him").1.mpr (by decide),
    (classifier_totality "He saw him").2.2.2.2.2 [] "GEN 1:1" rfl⟩

/-! ## C5: the drift guard boundary -/

/-- With the structural rejections ruled out and the original at least 20
characters, the guard reduces to the ratio test. -/
theorem similarity_guard_ratio (original revised : String)
    (h20 : 20 ≤ (normalize_space original).length)
    (hne : normalize_space revised ≠ "")
    (hch : commentary_or_heading (normalize_space revised) = false)
    (hvn : added_verse_number (normalize_space revised) = false) :
    similarity_guard original revised
      = (if 5 * (normalize_space revised).length
            < 3 * (normalize_space original).length then (false, "too_short")
         else if 8 * (normalize_space original).length
            < 5 * (normalize_space revised).length then (false, "too_long")
         else (true, "ok")) := by
  unfold similarity_guard
  simp only []
  rw [if_neg hne, if_neg (by simp [hch]), if_neg (by simp [hvn]), if_pos h20]

/-- C5: for an original of normalized length at least 20 (and a candidate
free of the structural rejections), a candidate at exactly 60 percent of
the original's normalized length is accepted, one at 59 percent is
rejected as too short with the engine falling back to the pre-rewrite
original, and in general a ratio strictly below 0.60 or strictly above
1.60 is rejected, every rejection restoring the original. -/
theorem drift_guard_boundary (original revised : String)
    (h20 : 20 ≤ (normalize_space original).length)
    (hne : normalize_space revised ≠ "")
    (hch : commentary_or_heading (normalize_space revised) = false)
    (hvn : added_verse_number (normalize_space revised) = false) :
    (5 * (normalize_space revised).length = 3 * (normalize_space original).length →
      similarity_guard original revised = (true, "ok"))
    ∧ (100 * (normalize_space revised).length
          = 59 * (normalize_space original).length →
        similarity_guard original revised = (false, "too_short")
        ∧ polishGuardStep original revised = original)
    ∧ (5 * (normalize_space revised).length < 3 * (normalize_space original).length →
        similarity_guard original revised = (false, "too_short"))
    ∧ (8 * (normalize_space original).length < 5 * (normalize_space revised).length →
        similarity_guard original revised = (false, "too_long"))
    ∧ ((similarity_guard original revised).1 = false →
        polishGuardStep original revised = original) := by
  have hg := similarity_guard_ratio original revised h20 hne hch hvn
  have hfall : (similarity_guard original revised).1 = false →
      polishGuardStep original revised = original := by
    intro hf
    unfold polishGuardStep
    rw [if_neg (by simp [hf])]
  refine ⟨?_, ?_, ?_, ?_, hfall⟩
  · intro hexact
    rw [hg, if_neg (by omega), if_neg (by omega)]
  · intro h59
    have hshort : 5 * (normalize_space revised).length
        < 3 * (normalize_space original).length := by omega
    have hsg : similarity_guard original revised = (false, "too_short") := by
      rw [hg, if_pos hshort]
    exact ⟨hsg, hfall (by rw [hsg])⟩
  · intro hshort
    rw [hg, if_pos hshort]
  · intro hlong
    rw [hg, if_neg (by omega), if_pos hlong]

/-- Witness for C5: a 100-character original with a 60-character
candidate (accepted) and a 59-character candidate (rejected and rolled
back to the original). -/
theorem drift_guard_boundary_witness :
    similarity_guard
        "aaaaaaaaaaaaaaaaaaaaaaaaaaaaaaaaaaaaaaaaaaaaaaaaaaaaaaaaaaaaaaaaaaaaaaaaaaaaaaaaaaaaaaaaaaaaaaaaaaaa"
        "bbbbbbbbbbbbbbbbbbbbbbbbbbbbbbbbbbbbbbbbbbbbbbbbbbbbbbbbbbbb" = (true, "ok")
    ∧ similarity_guard
        "aaaaaaaaaaaaaaaaaaaaaaaaaaaaaaaaaaaaaaaaaaaaaaaaaaaaaaaaaaaaaaaaaaaaaaaaaaaaaaaaaaaaaaaaaaaaaaaaaaaa"
        "bbbbbbbbbbbbbbbbbbbbbbbbbbbbbbbbbbbbbbbbbbbbbbbbbbbbbbbbbbb" = (false, "too_short")
    ∧ polishGuardStep
        "aaaaaaaaaaaaaaaaaaaaaaaaaaaaaaaaaaaaaaaaaaaaaaaaaaaaaaaaaaaaaaaaaaaaaaaaaaaaaaaaaaaaaaaaaaaaaaaaaaaa"
        "bbbbbbbbbbbbbbbbbbbbbbbbbbbbbbbbbbbbbbbbbbbbbbbbbbbbbbbbbbb"
      = "aaaaaaaaaaaaaaaaaaaaaaaaaaaaaaaaaaaaaaaaaaaaaaaaaaaaaaaaaaaaaaaaaaaaaaaaaaaaaaaaaaaaaaaaaaaaaaaaaaaa" := by
  have h1 := drift_guard_boundary
    "aaaaaaaaaaaaaaaaaaaaaaaaaaaaaaaaaaaaaaaaaaaaaaaaaaaaaaaaaaaaaaaaaaaaaaaaaaaaaaaaaaaaaaaaaaaaaaaaaaaa"
    "bbbbbbbbbbbbbbbbbbbbbbbbbbbbbbbbbbbbbbbbbbbbbbbbbbbbbbbbbbbb"
    (by decide) (by decide) (by decide) (by decide)
  have h2 := drift_guard_boundary
    "aaaaaaaaaaaaaaaaaaaaaaaaaaaaaaaaaaaaaaaaaaaaaaaaaaaaaaaaaaaaaaaaaaaaaaaaaaaaaaaaaaaaaaaaaaaaaaaaaaaa"
    "bbbbbbbbbbbbbbbbbbbbbbbbbbbbbbbbbbbbbbbbbbbbbbbbbbbbbbbbbbb"
    (by decide) (by decide) (by decide) (by decide)
  exact ⟨h1.1 (by decide), (h2.2.1 (by decide)).1, (h2.2.1 (by decide)).2⟩

/-! ## C6: the hard mixed-casing invariant -/

/-- C6: a text accepted by `apply_enforcement` never contains both
`angel of the LORD` and `angel of the Lord`; and whenever the rewrite
stages produce such a mixed-casing text, `apply_enforcement` raises the
fatal error instead of emitting it. -/
theorem invariant_no_mixed_casing :
    (∀ t u : String, apply_enforcement t = Except.ok u →
      ¬(strContains u "angel of the LORD" = true
        ∧ strContains u "angel of the Lord" = true))
    ∧ (∀ t : String,
        strContains (enforcementRules t) "angel of the LORD" = true →
        strContains (enforcementRules t) "angel of the Lord" = true →
        apply_enforcement t
          = Except.error
              "Mixed angel of the LORD and angel of the Lord after enforcement") := by
  constructor
  · intro t u hok hboth
    unfold apply_enforcement at hok
    rcases hv : validate_enforcement (enforcementRules t) with e | uu
    · rw [hv] at hok
      simp at hok
    · rw [hv] at hok
      simp at hok
      unfold validate_enforcement at hv
      by_cases hb : (strContains (enforcementRules t) "angel of the LORD" &&
          strContains (enforcementRules t) "angel of the Lord") = true
      · rw [if_pos hb] at hv
        simp at hv
      · rw [← hok] at hboth
        exact hb (by rw [hboth.1, hboth.2]; rfl)
  · intro t h1 h2
    unfold apply_enforcement validate_enforcement
    rw [if_pos (by rw [h1, h2]; rfl)]

/-- Witness for C6: a concrete input on which the rewrite stages leave a
mixed-casing text (`Lordly` defeats the word-boundary of rules 4 and 5
of `enforce_lord_caps`), so the run aborts with the fatal error. -/
theorem invariant_no_mixed_casing_witness :
    apply_enforcement "angel of the LORD and angel of the Lordly"
      = Except.error
          "Mixed angel of the LORD and angel of the Lord after enforcement" :=
  invariant_no_mixed_casing.2 "angel of the LORD and angel of the Lordly"
    (by decide) (by decide)

/-! ## C8: the calque repair example -/

/-- C8: the calque-repair rule rewrites the spec's example to exactly
`to divide the light from the darkness` (rule 2 first strips the
`divide between` collocation, then rule 4 rewrites the
`... and between ...` frame), and the non-greedy `[^,;]` capture stops
at a clause boundary: with a comma before `and` no `from`-rewrite
happens. -/
theorem calque_repair_example :
    enforce_between_from "to divide between the light and between the darkness"
      = "to divide the light from the darkness"
    ∧ enforce_between_from "to divide between the light, and between the darkness"
      = "to divide the light, and between the darkness" :=
  ⟨by decide, by decide⟩

/-! ## C4: idempotence of the rule pipeline -/

/-- Counterexample to C4: on `separated between between` one application
of the pipeline yields `separated between` (rule 1 of the calque repair
consumes the first `separated between`), and a second application
rewrites again to `separated`, so applying the pipeline twice differs
from applying it once. -/
theorem pipeline_idempotence_counterexample :
    (apply_enforcement "separated between between").bind apply_enforcement
      ≠ apply_enforcement "separated between between" := by
  have h1 : apply_enforcement "separated between between"
      = Except.ok "separated between" := rfl
  have h2 : (Except.ok "separated between").bind apply_enforcement
      = apply_enforcement "separated between" := rfl
  have h3 : apply_enforcement "separated between" = Except.ok "separated" := rfl
  rw [h1, h2, h3]
  intro h
  exact absurd (Except.ok.inj h) (by decide)

theorem hasWordIn_single_wordMap (w : List Char) (f : List Char → List Char)
    (hf : WordFun f) (hfix : f w = w) (t : String)
    (h : hasWordIn [w] t = true) :
    hasWordIn [w] (String.mk (wordMap f t.data)) = true := by
  unfold hasWordIn at h ⊢
  rw [show (String.mk (wordMap f t.data)).data = wordMap f t.data from rfl,
    chunks_wordMap f hf]
  rw [List.any_eq_true] at h ⊢
  obtain ⟨bc, hmem, hp⟩ := h
  obtain ⟨b, r⟩ := bc
  simp only [Bool.and_eq_true, List.any_eq_true] at hp
  obtain ⟨hb, w', hw', heq⟩ := hp
  have hw2 : w' = w := by simpa using hw'
  have hr : r = w := by rw [hw2] at heq; simpa using heq
  have hb' : b = true := hb
  subst hb'
  refine ⟨(true, f r), ?_, ?_⟩
  · unfold mapChunks
    exact List.mem_map.mpr ⟨(true, r), hmem, rfl⟩
  · simp [hr, hfix]

theorem hasTriple_mapChunks (w1 sep w2 : List Char) (f : List Char → List Char)
    (hf1 : f w1 = w1) (hf2 : f w2 = w2) :
    ∀ cl, hasTriple w1 sep w2 cl = true →
      hasTriple w1 sep w2 (mapChunks f cl) = true := by
  intro cl
  induction cl with
  | nil => intro h; simp [hasTriple] at h
  | cons x cl ih =>
    cases cl with
    | nil => intro h; simp [hasTriple] at h
    | cons y cl2 =>
      cases cl2 with
      | nil => intro h; simp [hasTriple] at h
      | cons z rest =>
        intro h
        obtain ⟨bx, rx⟩ := x
        obtain ⟨yb, ry⟩ := y
        obtain ⟨bz, rz⟩ := z
        rw [hasTriple, Bool.or_eq_true] at h
        rcases h with h | h
        · simp only [Bool.and_eq_true, beq_iff_eq] at h
          obtain ⟨⟨⟨⟨⟨hbx, hby⟩, hbz⟩, hrx⟩, hry⟩, hrz⟩ := h
          have hyb : yb = false := by cases yb <;> simp_all
          subst hbx; subst hyb; subst hbz
          have hmc : mapChunks f ((true, rx) :: (false, ry) :: (true, rz) :: rest)
              = (true, f rx) :: (false, ry) :: (true, f rz)
                :: mapChunks f rest := rfl
          rw [hmc, hasTriple, Bool.or_eq_true]
          left
          rw [hrx, hf1, hry, hrz, hf2]
          simp
        · have h2 := ih h
          show hasTriple w1 sep w2
            ((if bx then (true, f rx) else (bx, rx)) :: mapChunks f ((yb, ry)
              :: (bz, rz) :: rest)) = true
          have hmc : mapChunks f ((yb, ry) :: (bz, rz) :: rest)
              = (if yb then (true, f ry) else (yb, ry)) ::
                (if bz then (true, f rz) else (bz, rz)) :: mapChunks f rest := rfl
          rw [hmc] at h2 ⊢
          rw [hasTriple, Bool.or_eq_true]
          right
          exact h2

theorem hasDivineMarker_wordMap (f : List Char → List Char) (hf : WordFun f)
    (hG : f "God".data = "God".data) (hL : f "LORD".data = "LORD".data)
    (hLo : f "Lord".data = "Lord".data) (hGO : f "GOD".data = "GOD".data)
    (hth : f "the".data = "the".data) (t : String)
    (h : hasDivineMarker t = true) :
    hasDivineMarker (String.mk (wordMap f t.data)) = true := by
  unfold hasDivineMarker at h ⊢
  simp only [Bool.or_eq_true] at h ⊢
  rcases h with ((h | h) | h) | h
  · exact Or.inl (Or.inl (Or.inl (hasWordIn_single_wordMap _ f hf hG t h)))
  · exact Or.inl (Or.inl (Or.inr (hasWordIn_single_wordMap _ f hf hL t h)))
  · refine Or.inl (Or.inr ?_)
    rw [chunks_wordMap f hf]
    exact hasTriple_mapChunks _ _ _ f hLo hGO _ h
  · refine Or.inr ?_
    rw [chunks_wordMap f hf]
    exact hasTriple_mapChunks _ _ _ f hth hL _ h

/-- The minimal reverential-pronoun rule is idempotent: capitalizing the
four pronouns preserves the divine marker and leaves no lowercase
pronoun behind. -/
theorem resolver_idem (t : String) :
    enforce_reverential_pronouns_minimal (enforce_reverential_pronouns_minimal t)
      = enforce_reverential_pronouns_minimal t := by
  by_cases hm : hasDivineMarker t = true
  · have hstep : enforce_reverential_pronouns_minimal t
        = String.mk (wordMap pronCapAll t.data) := by
      unfold enforce_reverential_pronouns_minimal
      rw [if_pos hm, capAll_eq_wordMap]
    have hm2 : hasDivineMarker (String.mk (wordMap pronCapAll t.data)) = true :=
      hasDivineMarker_wordMap pronCapAll wordFun_pronCapAll (by decide) (by decide)
        (by decide) (by decide) (by decide) t hm
    rw [hstep]
    unfold enforce_reverential_pronouns_minimal
    rw [if_pos hm2, capAll_eq_wordMap]
    rw [show (String.mk (wordMap pronCapAll t.data)).data
      = wordMap pronCapAll t.data from rfl]
    rw [wordMap_comp pronCapAll pronCapAll wordFun_pronCapAll]
    rw [wordMap_congr _ pronCapAll (fun r => pronCapAll_idem r) t.data]
  · have hstep : enforce_reverential_pronouns_minimal t = t := by
      unfold enforce_reverential_pronouns_minimal
      rw [if_neg hm]
    rw [hstep, hstep]

/-- C4 (amended): the full ordered pipeline is not idempotent — the
calque-repair substitutions can cascade, as the counterexample
`separated between between` shows — but the pronoun-casing stage is
idempotent on every input, and the full pipeline is idempotent on the
spec's calque example. -/
theorem pipeline_idempotence_amended :
    (∀ t : String,
      enforce_reverential_pronouns_minimal (enforce_reverential_pronouns_minimal t)
        = enforce_reverential_pronouns_minimal t)
    ∧ (apply_enforcement "to divide between the light and between the darkness").bind
          apply_enforcement
        = apply_enforcement "to divide between the light and between the darkness" :=
  ⟨resolver_idem, rfl⟩

/-! ## C7: the resolver never lowercases -/

/-- C7: the resolver only ever capitalizes: its output decomposes into
exactly the input's word and separator runs with each word run mapped
through `pronCapAll` (which changes only the four lowercase pronouns,
to their capitalized forms) when a divine marker is present, and it
returns any text without lowercase whole-word pronouns unchanged. -/
theorem resolver_never_lowercases (t : String) :
    chunks (enforce_reverential_pronouns_minimal t).data
      = (if hasDivineMarker t then mapChunks pronCapAll (chunks t.data)
         else chunks t.data)
    ∧ (hasWordIn humLowWords t = false →
        enforce_reverential_pronouns_minimal t = t) := by
  by_cases hm : hasDivineMarker t = true
  · have hstep : enforce_reverential_pronouns_minimal t
        = String.mk (wordMap pronCapAll t.data) := by
      unfold enforce_reverential_pronouns_minimal
      rw [if_pos hm, capAll_eq_wordMap]
    constructor
    · rw [hstep, if_pos hm]
      exact chunks_wordMap pronCapAll wordFun_pronCapAll t.data
    · intro hno
      rw [hstep]
      have hnot : ∀ bc ∈ chunks t.data, ¬(bc.1 = true ∧ bc.2 ∈ humLowWords) := by
        intro bc hmem hand
        obtain ⟨hb, hin⟩ := hand
        have htrue : hasWordIn humLowWords t = true := by
          unfold hasWordIn
          rw [List.any_eq_true]
          refine ⟨bc, hmem, ?_⟩
          rw [Bool.and_eq_true, List.any_eq_true]
          exact ⟨hb, bc.2, hin, by simp⟩
        rw [htrue] at hno
        simp at hno
      have hfix : ∀ bc ∈ chunks t.data, bc.1 = true → pronCapAll bc.2 = bc.2 := by
        intro bc hmem hb
        have hnin : bc.2 ∉ humLowWords := fun hin => hnot bc hmem ⟨hb, hin⟩
        apply pronCapAll_fix
        · intro heq; exact hnin (by rw [heq]; decide)
        · intro heq; exact hnin (by rw [heq]; decide)
        · intro heq; exact hnin (by rw [heq]; decide)
        · intro heq; exact hnin (by rw [heq]; decide)
      rw [wordMap_id_on pronCapAll t.data hfix]
  · have hstep : enforce_reverential_pronouns_minimal t = t := by
      unfold enforce_reverential_pronouns_minimal
      rw [if_neg hm]
    exact ⟨by rw [hstep, if_neg hm], fun _ => hstep⟩

/-- Witness for C7: a pronoun-free text with a divine marker is returned
unchanged. -/
theorem resolver_never_lowercases_witness :
    hasWordIn humLowWords "the LORD spoke" = false
    ∧ enforce_reverential_pronouns_minimal "the LORD spoke" = "the LORD spoke" :=
  ⟨by decide, (resolver_never_lowercases "the LORD spoke").2 (by decide)⟩

/-! ## C9: last APPROVE wins -/

/-- The dict built by `read_approved` answers exactly with the last
APPROVE row for each nonempty ref. -/
theorem lookupA_read_approved (rows : List CsvRow) (ref : String) :
    lookupA (read_approved rows) ref
      = ((approveRowsFor rows ref).getLast?).map CsvRow.suggested := by
  induction rows using List.reverseRecOn with
  | nil => simp [read_approved, approveRowsFor, lookupA]
  | append_singleton rows w ih =>
    unfold read_approved at ih ⊢
    rw [List.foldl_append]
    unfold approveRowsFor at ih ⊢
    rw [List.filter_append]
    simp only [List.foldl_cons, List.foldl_nil]
    by_cases hd : pyUpper (pyStrip w.decision) = "APPROVE"
    · by_cases hr : pyStrip w.ref = ""
      · have hp : (pyUpper (pyStrip w.decision) == "APPROVE"
            && pyStrip w.ref == ref && ref != "") = false := by
          by_cases hrr : ref = ""
          · rw [hrr]
            simp
          · have hb : (pyStrip w.ref == ref) = false :=
              beq_eq_false_iff_ne.mpr (by rw [hr]; exact fun h => hrr h.symm)
            rw [hb]
            simp
        rw [if_pos hd, if_pos hr]
        simp only [List.filter_cons, List.filter_nil, hp, Bool.false_eq_true,
          if_false, List.append_nil]
        exact ih
      · rw [if_pos hd, if_neg hr]
        by_cases hmatch : pyStrip w.ref = ref
        · have hrefne : ref ≠ "" := by rw [← hmatch]; exact hr
          have hp : (pyUpper (pyStrip w.decision) == "APPROVE"
              && pyStrip w.ref == ref && ref != "") = true := by
            simp only [Bool.and_eq_true, beq_iff_eq, bne_iff_ne]
            exact ⟨⟨hd, hmatch⟩, hrefne⟩
          rw [show lookupA ((pyStrip w.ref, w.suggested)
              :: List.foldl _ [] rows) ref
            = if pyStrip w.ref = ref then some w.suggested
              else lookupA (List.foldl _ [] rows) ref from rfl]
          rw [if_pos hmatch]
          simp only [List.filter_cons, List.filter_nil, hp, if_true]
          rw [List.getLast?_concat]
          rfl
        · have hb : (pyStrip w.ref == ref) = false := beq_eq_false_iff_ne.mpr hmatch
          have hp : (pyUpper (pyStrip w.decision) == "APPROVE"
              && pyStrip w.ref == ref && ref != "") = false := by
            rw [hb]
            simp
          rw [show lookupA ((pyStrip w.ref, w.suggested)
              :: List.foldl _ [] rows) ref
            = if pyStrip w.ref = ref then some w.suggested
              else lookupA (List.foldl _ [] rows) ref from rfl]
          rw [if_neg hmatch]
          simp only [List.filter_cons, List.filter_nil, hp, Bool.false_eq_true,
            if_false, List.append_nil]
          exact ih
    · have hb : (pyUpper (pyStrip w.decision) == "APPROVE") = false :=
        beq_eq_false_iff_ne.mpr hd
      have hp : (pyUpper (pyStrip w.decision) == "APPROVE"
          && pyStrip w.ref == ref && ref != "") = false := by
        rw [hb]
        simp
      rw [if_neg hd]
      simp only [List.filter_cons, List.filter_nil, hp, Bool.false_eq_true,
        if_false, List.append_nil]
      exact ih

/-- C9: applying an approval artifact rewrites exactly the records whose
ref has an APPROVE row — each such record's text is replaced outright by
the `suggested` value of the last APPROVE row for that ref — and leaves
every other record unchanged; with two APPROVE rows for one ref, the
second row's suggestion lands in the final corpus. -/
theorem override_last_approve_wins :
    (∀ (rows : List CsvRow) (records : List (String × String)),
      applyCaps (read_approved rows) records
        = records.map (fun rc =>
            match (approveRowsFor rows rc.1).getLast? with
            | some w => (rc.1, w.suggested)
            | none => rc))
    ∧ applyCaps
        (read_approved
          [⟨"APPROVE", "PSA 23:1", "old", "first suggestion"⟩,
            ⟨"APPROVE", "PSA 23:1", "old", "second suggestion"⟩])
        [("PSA 23:1", "old")]
      = [("PSA 23:1", "second suggestion")] := by
  constructor
  · intro rows records
    unfold applyCaps
    apply List.map_congr_left
    intro rc _
    rw [lookupA_read_approved rows rc.1]
    rcases hlast : (approveRowsFor rows rc.1).getLast? with _ | w
    · rfl
    · show (if rc.2 ≠ w.suggested then (rc.1, w.suggested) else rc)
        = (rc.1, w.suggested)
      by_cases heq : rc.2 = w.suggested
      · rw [if_neg (not_not_intro heq), ← heq]
      · rw [if_pos heq]
  · decide

/-! ## C10: empty and whitespace reference texts -/

theorem chunksOK_mem : ∀ cl, ChunksOK cl →
    ∀ bc ∈ cl, bc.2 ≠ [] ∧ ∀ c ∈ bc.2, isWordChar c = bc.1 := by
  intro cl
  induction cl with
  | nil => intro _ bc h; cases h
  | cons x cl ih =>
    intro h bc hmem
    obtain ⟨b, r⟩ := x
    rw [chunksOK_cons] at h
    obtain ⟨hne, hw, _, hok⟩ := h
    rcases List.mem_cons.mp hmem with heq | hmem2
    · subst heq; exact ⟨hne, hw⟩
    · exact ih hok bc hmem2

theorem mem_unchunk (cl : List (Bool × List Char)) (bc : Bool × List Char)
    (c : Char) (hmem : bc ∈ cl) (hc : c ∈ bc.2) : c ∈ unchunk cl := by
  induction cl with
  | nil => cases hmem
  | cons x cl ih =>
    show c ∈ x.2 ++ unchunk cl
    rw [List.mem_append]
    rcases List.mem_cons.mp hmem with heq | hmem2
    · subst heq; exact Or.inl hc
    · exact Or.inr (ih hmem2)

theorem isWs_not_word (c : Char) (h : isWs c = true) : isWordChar c = false := by
  unfold isWs at h
  simp only [Bool.or_eq_true, decide_eq_true_eq] at h
  rcases h with ((((h | h) | h) | h) | h) | h <;> subst h <;> decide

/-- An all-whitespace reference text contains no word at all, so the
classifier reports `none`. -/
theorem classify_all_ws (k : String) (hws : k.data.all isWs = true) :
    classify_kjv k = "none" := by
  have hflag : ∀ bc ∈ chunks k.data, bc.1 = false := by
    intro bc hmem
    obtain ⟨hne, hw⟩ := chunksOK_mem _ (chunksOK_chunks k.data) bc hmem
    rcases hbc : bc.2 with _ | ⟨c, rest⟩
    · exact absurd hbc hne
    · have hc : c ∈ bc.2 := by rw [hbc]; exact List.mem_cons_self c rest
      have hcl : c ∈ k.data := by
        have := mem_unchunk (chunks k.data) bc c hmem hc
        rwa [unchunk_chunks] at this
      have hwsc : isWs c = true := by
        rw [List.all_eq_true] at hws
        exact hws c hcl
      have hcw := hw c hc
      rw [isWs_not_word c hwsc] at hcw
      exact hcw.symm
  have hnone : ∀ ws, hasWordIn ws k = false := by
    intro ws
    apply Bool.eq_false_iff.mpr
    intro hcontra
    unfold hasWordIn at hcontra
    rw [List.any_eq_true] at hcontra
    obtain ⟨bc, hmem, hp⟩ := hcontra
    rw [Bool.and_eq_true] at hp
    rw [hflag bc hmem] at hp
    exact absurd hp.1 (by decide)
  simp [classify_kjv, hnone]

theorem lookupA_mem (m : List (String × String)) (k v : String)
    (h : lookupA m k = some v) : ∃ a, (a, v) ∈ m := by
  induction m with
  | nil => simp [lookupA] at h
  | cons p m ih =>
    obtain ⟨a, w⟩ := p
    by_cases ha : a = k
    · have h2 : some w = some v := by
        rw [show lookupA ((a, w) :: m) k
          = if a = k then some w else lookupA m k from rfl, if_pos ha] at h
        exact h
      injection h2 with h2
      exact ⟨a, by rw [h2]; exact List.mem_cons_self _ _⟩
    · have h2 : lookupA m k = some v := by
        rw [show lookupA ((a, w) :: m) k
          = if a = k then some w else lookupA m k from rfl, if_neg ha] at h
        exact h
      obtain ⟨a2, hmem⟩ := ih h2
      exact ⟨a2, List.mem_cons_of_mem _ hmem⟩

theorem dropWhile_head_false {α : Type} (p : α → Bool) (l : List α) (d : α)
    (rest : List α) (h : l.dropWhile p = d :: rest) : p d = false := by
  induction l with
  | nil => simp at h
  | cons c cs ih =>
    rw [List.dropWhile_cons] at h
    by_cases hc : p c = true
    · rw [if_pos hc] at h; exact ih h
    · rw [if_neg hc] at h
      injection h with h1 _
      subst h1
      exact Bool.not_eq_true _ |>.mp hc

theorem pyStrip_idem (s : String) : pyStrip (pyStrip s) = pyStrip s := by
  have hB : (pyStrip s).data = (s.data.dropWhile isWs).rdropWhile isWs := rfl
  have hdw : ((s.data.dropWhile isWs).rdropWhile isWs).dropWhile isWs
      = (s.data.dropWhile isWs).rdropWhile isWs := by
    rcases hp : (s.data.dropWhile isWs).rdropWhile isWs with _ | ⟨d, B2⟩
    · rfl
    · obtain ⟨tl, htl⟩ := List.rdropWhile_prefix isWs (s.data.dropWhile isWs)
      rw [hp] at htl
      have hA : s.data.dropWhile isWs = d :: (B2 ++ tl) := by rw [← htl]; rfl
      have hpd : isWs d = false := dropWhile_head_false isWs s.data d _ hA
      simp [List.dropWhile_cons, hpd]
  show String.mk (((pyStrip s).data.dropWhile isWs).rdropWhile isWs) = pyStrip s
  rw [hB, hdw, List.rdropWhile_idempotent]
  rfl

/-- Every text stored by the polish loader is nonempty and already
stripped (in particular never all-whitespace). -/
theorem load_kjv_vals (lines : List KjvLine) :
    ∀ acc : List (String × String),
      (∀ p ∈ acc, p.2 ≠ "" ∧ pyStrip p.2 = p.2) →
      ∀ p ∈ lines.foldl loadKjvStep acc, p.2 ≠ "" ∧ pyStrip p.2 = p.2 := by
  induction lines with
  | nil => intro acc hacc p hp; exact hacc p hp
  | cons ln lines ih =>
    intro acc hacc p hp
    rw [List.foldl_cons] at hp
    refine ih _ ?_ p hp
    intro q hq
    unfold loadKjvStep at hq
    by_cases h1 : pyStrip (pyOr ln.ref "") = ""
    · rw [if_pos h1] at hq; exact hacc q hq
    · by_cases h2 : pyStrip (pyOr ln.kjv (pyOr ln.text "")) = ""
      · rw [if_neg h1, if_pos h2] at hq; exact hacc q hq
      · rw [if_neg h1, if_neg h2] at hq
        rcases List.mem_cons.mp hq with heq | hq2
        · subst heq
          exact ⟨h2, pyStrip_idem _⟩
        · exact hacc q hq2

/-- Counterexample to C10: a ref mapped to the all-whitespace reference
text `" "` is not handled like a missing reference: the code classifies
it (as `none`) and emits no review item, while a missing reference
emits the missing-reference review item. -/
theorem whitespace_reference_counterexample :
    processVerse "skip" "GEN 1:1" (some " ") "In the beginning"
      = ("In the beginning", [], some "none")
    ∧ processVerse "skip" "GEN 1:1" none "In the beginning"
      = ("In the beginning", [("GEN 1:1", "missing_kjv_ref")], none)
    ∧ processVerse "skip" "GEN 1:1" (some " ") "In the beginning"
      ≠ processVerse "skip" "GEN 1:1" none "In the beginning" :=
  ⟨by decide, rfl, by decide⟩

/-- C10 (amended): a ref mapped to an EMPTY reference text is handled
identically to a missing reference record (no classification, one
missing-reference review item, candidate unchanged); an all-whitespace
nonempty reference text is instead classified `none` — the candidate
still passes through unchanged but no review item is emitted — because
`kjv_pronouns.py` loads values unstripped; the polish loader, by
contrast, strips values at load, so it never maps a ref to an empty or
all-whitespace text (such refs behave as missing there). -/
theorem empty_reference_amended :
    (∀ ref t : String,
      processVerse "skip" ref (some "") t = processVerse "skip" ref none t
      ∧ processVerse "skip" ref none t = (t, [(ref, "missing_kjv_ref")], none))
    ∧ (∀ ref t k : String, k ≠ "" → k.data.all isWs = true →
        processVerse "skip" ref (some k) t = (t, [], some "none"))
    ∧ (∀ (lines : List KjvLine) (ref v : String),
        lookupA (load_kjv_jsonl lines) ref = some v →
          v ≠ "" ∧ pyStrip v = v) := by
  refine ⟨fun ref t => ⟨rfl, rfl⟩, ?_, ?_⟩
  · intro ref t k hk hws
    have hcls := classify_all_ws k hws
    simp [processVerse, hk, hcls]
  · intro lines ref v hlook
    obtain ⟨a, hmem⟩ := lookupA_mem _ _ _ hlook
    exact load_kjv_vals lines [] (by intro p hp; cases hp) (a, v) hmem

/-- Witness for C10 (amended): a two-space reference text is classified
`none` with the candidate passed through, and an empty reference text
behaves exactly like a missing record. -/
theorem empty_reference_amended_witness :
    processVerse "skip" "GEN 1:1" (some "  ") "light" = ("light", [], some "none")
    ∧ processVerse "skip" "GEN 1:1" (some "") "light"
      = processVerse "skip" "GEN 1:1" none "light" :=
  ⟨empty_reference_amended.2.1 "GEN 1:1" "light" "  " (by decide) (by decide),
    (empty_reference_amended.1 "GEN 1:1" "light").1⟩
